import Mathlib

set_option maxRecDepth 100000

/-!
Shallow embedding of the simulation core of the `tanks` repository
(`src/world.rs`, `src/math.rs`, `src/physics.rs`).

Modelling conventions:
* `f32` values are modelled as exact rationals (`ℚ`).  All arithmetic the
  embedded code performs on them (+, -, *, /, abs, min, comparisons) is exact.
* Rust's `as isize` / `as usize` casts on floats truncate toward zero
  (saturating at 0 for `usize`); they are modelled by `truncQ` / `castUsize`.
* The f32 square root only occurs inside the comparison
  `pos.distance(explosion_pos) <= radius` and inside comparisons of vector
  `length()`s.  Both are modelled by the equivalent comparisons of squared
  quantities (`dist_le`, `Vec2.len2`): for nonnegative reals, `sqrt d ≤ r`
  iff `0 ≤ r ∧ d ≤ r^2`, and `sqrt a ≤ sqrt b` iff `a ≤ b`.
* The f32 sine intrinsic used by terrain generation is transcendental and is
  abstracted as an explicit function parameter `sine : ℚ → ℚ`.
* `Vec` indexing guarded by assertions becomes `Option` (`World.set`);
  indexing that the surrounding code guards is total with an `Air` default
  (`List.getD`), which agrees with the source whenever the grid invariant
  `data.length = width * height` holds.
* Iterators become `List`s, iteration becomes `List.foldl` in the same
  element order as the Rust loops.
-/

namespace Tanks

/-- A 2D vector with exact rational components, modelling bevy's `Vec2`. -/
structure Vec2 where
  x : ℚ
  y : ℚ
deriving DecidableEq

instance : Add Vec2 := ⟨fun a b => ⟨a.x + b.x, a.y + b.y⟩⟩

instance : Sub Vec2 := ⟨fun a b => ⟨a.x - b.x, a.y - b.y⟩⟩

/-- Component-wise vector division (bevy's `Div` for `Vec2`). -/
def Vec2.divC (a b : Vec2) : Vec2 := ⟨a.x / b.x, a.y / b.y⟩

/-- Scalar multiplication `c * v`. -/
def Vec2.smul (c : ℚ) (v : Vec2) : Vec2 := ⟨c * v.x, c * v.y⟩

/-- bevy `Vec2::ZERO`. -/
def Vec2.zero : Vec2 := ⟨0, 0⟩

/-- bevy `Vec2::abs` (component-wise absolute value). -/
def Vec2.abs (v : Vec2) : Vec2 := ⟨|v.x|, |v.y|⟩

/-- bevy `Vec2::perp`: counterclockwise perpendicular `(-y, x)`. -/
def Vec2.perp (v : Vec2) : Vec2 := ⟨-v.y, v.x⟩

/-- bevy `Vec2::min_element`. -/
def Vec2.min_element (v : Vec2) : ℚ := min v.x v.y

/-- Squared Euclidean length.  The source compares `Vec2::length()` values;
since `sqrt` is monotone, comparing squared lengths is equivalent. -/
def Vec2.len2 (v : Vec2) : ℚ := v.x * v.x + v.y * v.y

/-- bevy `Rect` (stored as min/max corners, as in bevy). -/
structure Rect where
  min : Vec2
  max : Vec2
deriving DecidableEq

/-- bevy `Rect::center`. -/
def Rect.center (r : Rect) : Vec2 := Vec2.smul (1/2) (r.min + r.max)

/-- bevy `Rect::half_size`. -/
def Rect.half_size (r : Rect) : Vec2 := Vec2.smul (1/2) (r.max - r.min)

/-- bevy `Rect::from_center_size`. -/
def Rect.from_center_size (c s : Vec2) : Rect :=
  ⟨c - Vec2.smul (1/2) s, c + Vec2.smul (1/2) s⟩

/-- bevy `Rect::width`. -/
def Rect.width (r : Rect) : ℚ := r.max.x - r.min.x

/-- bevy `Rect::height`. -/
def Rect.height (r : Rect) : ℚ := r.max.y - r.min.y

/-- Moving a rectangle by a vector (adding a correction to the rect's
position, which shifts both corners). -/
def Rect.translate (r : Rect) (v : Vec2) : Rect := ⟨r.min + v, r.max + v⟩

/-- Rust `as isize` on an f32 value: truncation toward zero (exact here). -/
def truncQ (q : ℚ) : ℤ := Int.tdiv q.num q.den

/-- Rust `as usize` on an f32 value: truncation toward zero, saturating at 0. -/
def castUsize (q : ℚ) : ℕ := (truncQ q).toNat

/-- Half-open integer range `a..b`, in ascending order, as in Rust. -/
def intRange (a b : ℤ) : List ℤ := (List.range (b - a).toNat).map fun n : ℕ => a + (n : ℤ)

/-- Rust `math::min_by_key` from `src/math.rs`, at the use-site types.
`val_a.partial_cmp(&val_b)` is always `Some` here (ℚ is totally ordered):
`Less | Equal ↦ a`, `Greater ↦ b`. -/
def min_by_key (a b : Vec2) (f : Vec2 → ℚ) : Vec2 :=
  if f b < f a then b else a

/-- Rust `math::max_by_key` from `src/math.rs`, at the use-site types:
`Greater | Equal ↦ a`, `Less ↦ b`. -/
def max_by_key (a b : Vec2) (f : Vec2 → ℚ) : Vec2 :=
  if f a < f b then b else a

/-- Rust `math::vector_line_point` from `src/math.rs`: shortest vector from the
segment `(0,0)..line` to `point`. -/
def vector_line_point (line point : Vec2) : Vec2 :=
  let vec_origin_point := point
  let vec_line_end_point := point - line
  if line = Vec2.zero then vec_origin_point
  else
    let t := (line.x * point.x + line.y * point.y) / (line.x * line.x + line.y * line.y)
    if t ≤ 0 ∨ 1 ≤ t then
      min_by_key vec_origin_point vec_line_end_point Vec2.len2
    else
      point - Vec2.smul t line

/-- Rust `WorldTile` from `src/world.rs`. -/
inductive WorldTile where
  | Air : WorldTile
  | Dirt : WorldTile
deriving DecidableEq

/-- Rust `WorldTile::default()` (the `#[default]` variant is `Air`). -/
def WorldTile.default : WorldTile := WorldTile.Air

/-- Rust `WorldTile::is_not_air`. -/
def WorldTile.is_not_air (t : WorldTile) : Bool :=
  match t with
  | WorldTile.Air => false
  | WorldTile.Dirt => true

/-- Rust `WorldTile::has_collider`. -/
def WorldTile.has_collider (t : WorldTile) : Bool := t.is_not_air

/-- Rust `World` from `src/world.rs`: a flat row-major grid of tiles. -/
structure World where
  width : ℕ
  height : ℕ
  data : List WorldTile
deriving DecidableEq

/-- Rust `RenderedWorldTile` from `src/world.rs`; `neighbors` lists the
top, left, bottom, right neighbor tiles in that order. -/
structure RenderedWorldTile where
  pos : ℤ × ℤ
  tile : WorldTile
  neighbors : List WorldTile
deriving DecidableEq

/-- Rust `World::new`. -/
def World.new (width height : ℕ) : World :=
  ⟨width, height, List.replicate (width * height) WorldTile.default⟩

/-- Rust `World::coords_to_index`; the two `assert!`s become the `Option` guard
(`none` models the fatal assertion failure). -/
def World.coords_to_index (w : World) (x y : ℤ) : Option ℕ :=
  if x < (w.width : ℤ) ∧ 0 ≤ x ∧ y < (w.height : ℤ) ∧ 0 ≤ y then
    some (x + y * (w.width : ℤ)).toNat
  else none

/-- Rust `World::set`; `none` models the assertion failure inside
`coords_to_index`. -/
def World.set (w : World) (x y : ℤ) (tile : WorldTile) : Option World :=
  (w.coords_to_index x y).map fun idx => ⟨w.width, w.height, w.data.set idx tile⟩

/-- Total wrapper for `World::set`, used to embed call sites whose
surrounding code guarantees the coordinates are in range (so the assertion
cannot fire and the `getD` fallback is never taken). -/
def World.setD (w : World) (x y : ℤ) (tile : WorldTile) : World :=
  (w.set x y tile).getD w

/-- Rust `World::get`: total, defaulting to `Air` out of range.  In range it reads
`data[x + y*width]`; the `getD` default is irrelevant whenever
`data.length = width * height`. -/
def World.get (w : World) (x y : ℤ) : WorldTile :=
  if x < 0 ∨ (w.width : ℤ) ≤ x ∨ y < 0 ∨ (w.height : ℤ) ≤ y then WorldTile.default
  else w.data.getD (x + y * (w.width : ℤ)).toNat WorldTile.default

/-- Rust `World::get_rendered`. -/
def World.get_rendered (w : World) (x y : ℤ) : RenderedWorldTile :=
  { pos := (x, y)
    tile := w.get x y
    neighbors := [w.get x (y + 1), w.get (x - 1) y, w.get x (y - 1), w.get (x + 1) y] }

/-- The comparison `pos.distance(explosion_pos) <= radius` from
`World::fill_radius`; squared-distance form of the f32 comparison
(`sqrt d ≤ r` iff `0 ≤ r ∧ d ≤ r*r`). -/
def dist_le (p q : Vec2) (r : ℚ) : Prop :=
  0 ≤ r ∧ (p.x - q.x) * (p.x - q.x) + (p.y - q.y) * (p.y - q.y) ≤ r * r

instance (p q : Vec2) (r : ℚ) : Decidable (dist_le p q r) := by
  unfold dist_le; infer_instance

/-- Body of the inner `for y in ...` loop of `World::fill_radius`.
The bound checks read `self.height`, which `set` never changes, so the
initial grid height `H` is passed in. -/
def fill_step_y (H : ℕ) (explosion_pos : Vec2) (radius : ℚ) (tile : WorldTile)
    (x : ℤ) (w1 : World) (y : ℤ) : World :=
  if y < 0 ∨ (H : ℤ) ≤ y then w1
  else
    let pos : Vec2 := ⟨(x : ℚ), (y : ℚ)⟩
    if dist_le pos explosion_pos radius then w1.setD x y tile else w1

/-- Body of the outer `for x in ...` loop of `World::fill_radius`. -/
def fill_step_x (W H : ℕ) (explosion_y radius_int : ℤ) (explosion_pos : Vec2)
    (radius : ℚ) (tile : WorldTile) (w0 : World) (x : ℤ) : World :=
  if x < 0 ∨ (W : ℤ) ≤ x then w0
  else
    (intRange (explosion_y - radius_int) (explosion_y + radius_int)).foldl
      (fill_step_y H explosion_pos radius tile x) w0

/-- Rust `World::fill_radius` from `src/world.rs`. -/
def World.fill_radius (w : World) (explosion_x explosion_y : ℤ) (radius : ℚ)
    (tile : WorldTile) : World :=
  let explosion_pos : Vec2 := ⟨(explosion_x : ℚ), (explosion_y : ℚ)⟩
  let radius_int : ℤ := truncQ (radius + 1/2)
  (intRange (explosion_x - radius_int) (explosion_x + radius_int)).foldl
    (fill_step_x w.width w.height explosion_y radius_int explosion_pos radius tile) w

/-- Rust `World::_get_rendered_in_rect` (the iterator is materialised as a list,
in the iteration order of the Rust code: `x` outer, `y` inner, ascending). -/
def World.rendered_in_rect_raw (w : World) (left_x bottom_y width height : ℤ) :
    List RenderedWorldTile :=
  (intRange left_x (left_x + width)).flatMap fun x =>
    (intRange bottom_y (bottom_y + height)).filterMap fun y =>
      if y < 0 ∨ (w.height : ℤ) ≤ y ∨ x < 0 ∨ (w.width : ℤ) ≤ x then none
      else some (w.get_rendered x y)

/-- Rust `World::get_rendered_in_rect`. -/
def World.get_rendered_in_rect (w : World) (rect : Rect) : List RenderedWorldTile :=
  w.rendered_in_rect_raw (truncQ (rect.min.x - 1)) (truncQ (rect.min.y - 1))
    (truncQ (rect.width + 2)) (truncQ (rect.height + 2))

/-- Rust `Wave` from the `world_gen` module of `src/world.rs`. -/
structure Wave where
  height : ℚ
  speed : ℚ
  off_y : ℚ
  off_x : ℚ
deriving DecidableEq

/-- Rust `Wave::at_x`; the f32 `sin` intrinsic is abstracted as `sine`. -/
def Wave.at_x (sine : ℚ → ℚ) (wave : Wave) (x : ℚ) : ℚ :=
  wave.off_y + sine ((x + wave.off_x) * wave.speed) * wave.height

/-- The column height `waves.iter().map(|wave| wave.at_x(x as f32)).sum()`
computed by `generate_world`. -/
def col_height (waves : List Wave) (sine : ℚ → ℚ) (x : ℚ) : ℚ :=
  (waves.map fun wave => wave.at_x sine x).sum

/-- Body of the inner `for y in ...` loop of `generate_world`. -/
def gen_step_y (x : ℤ) (w1 : World) (y : ℤ) : World :=
  w1.setD x y WorldTile.Dirt

/-- Body of the outer `for x in ...` loop of `generate_world`. -/
def gen_step_x (H : ℕ) (waves : List Wave) (sine : ℚ → ℚ) (w0 : World) (x : ℤ) : World :=
  (intRange 0 (Nat.min H (castUsize (col_height waves sine (x : ℚ))) : ℕ)).foldl
    (gen_step_y x) w0

/-- Rust `world_gen::generate_world` from `src/world.rs`. -/
def generate_world (width height : ℕ) (waves : List Wave) (sine : ℚ → ℚ) : World :=
  (intRange 0 (width : ℤ)).foldl (gen_step_x height waves sine) (World.new width height)

/-- Rust `World::generate`, with the configured three waves.  The f32 constants
`0.25, 0.3, 0.1, 0.015` are written as exact decimals and `std::f32::consts::PI`
is abstracted as the parameter `piQ`, alongside the sine parameter. -/
def World.generate (sine : ℚ → ℚ) (piQ : ℚ) (width height : ℕ) : World :=
  let w : ℚ := (width : ℚ)
  let h : ℚ := (height : ℚ)
  generate_world width height
    [⟨h * (1/4), piQ / w, h * (3/10), 0⟩,
     ⟨h * (1/10), piQ / w * 4, 0, piQ⟩,
     ⟨h * (3/200), 3/10, 0, 42⟩] sine

/-- Rust `Line` from `src/physics.rs` (`end` is a Lean keyword; the field is
called `endp`). -/
structure Line where
  start : Vec2
  endp : Vec2
deriving DecidableEq

/-- Rust `Line::dir`. -/
def Line.dir (l : Line) : Vec2 := l.endp - l.start

/-- The quantity `delta = rect.half_size() - distance_vector.abs()` computed
inside `Line::collide_rect`. -/
def collision_delta (l : Line) (rect : Rect) : Vec2 :=
  rect.half_size - (vector_line_point (l.endp - l.start) (rect.center - l.start)).abs

/-- Rust `Line::collide_rect` from `src/physics.rs`.  The `match` on `perp`
tests `x == 0.0` first, then `y == 0.0`, then takes
`(delta / perp).min_element()`. -/
def Line.collide_rect (l : Line) (rect : Rect) : Option Vec2 :=
  let delta := collision_delta l rect
  if 0 < delta.x ∧ 0 < delta.y then
    let perp := l.dir.perp
    let factor :=
      if perp.x = 0 then delta.y / perp.y
      else if perp.y = 0 then delta.x / perp.x
      else (Vec2.divC delta perp).min_element
    some (Vec2.smul factor perp)
  else none

/-- The single line returned by `get_tile_lines`: the tile's top edge. -/
def tile_top_line (x y : ℤ) : Line :=
  ⟨⟨(x : ℚ), (y : ℚ) + 1⟩, ⟨(x : ℚ) + 1, (y : ℚ) + 1⟩⟩

/-- Rust `get_tile_lines` from `src/physics.rs`. -/
def get_tile_lines (x y : ℤ) : List Line := [tile_top_line x y]

/-- Rust `TILE_SIZE` from `src/main.rs`. -/
def TILE_SIZE : ℚ := 8

/-- Per-entity state touched by the physics systems: `Transform`
(translation.xy and scale.xy), `Rigidbody`, `WorldTransform`, `Intersection`. -/
structure EntityState where
  translation : Vec2
  scale : Vec2
  motion : Vec2
  wt_translation : Vec2
  wt_tile_position : ℤ × ℤ
  correction : Vec2
deriving DecidableEq

/-- The `apply_motion` system of `src/physics.rs`, for one entity. -/
def apply_motion (dt : ℚ) (e : EntityState) : EntityState :=
  { e with translation :=
      ⟨e.translation.x + e.motion.x * TILE_SIZE * dt,
       e.translation.y + e.motion.y * TILE_SIZE * dt⟩ }

/-- The `set_world_transform` system of `src/physics.rs`, for one entity. -/
def set_world_transform (e : EntityState) : EntityState :=
  let world_pos := Vec2.smul (1 / TILE_SIZE) e.translation
  { e with wt_translation := world_pos
           wt_tile_position := (truncQ world_pos.x, truncQ world_pos.y) }

/-- The `reset_intersections` system of `src/physics.rs`, for one entity. -/
def reset_intersections (e : EntityState) : EntityState :=
  { e with correction := Vec2.zero }

/-- The corrections produced inside `collide_with_world` for one entity, in
loop order: solid tiles of `get_rendered_in_rect`, their tile lines, and the
successful `collide_rect` results. -/
def collider_corrections (w : World) (rect : Rect) : List Vec2 :=
  ((w.get_rendered_in_rect rect).filter fun world_tile => world_tile.tile.has_collider).flatMap
    fun world_tile =>
      (get_tile_lines world_tile.pos.1 world_tile.pos.2).filterMap
        fun line => line.collide_rect rect

/-- The `max_correction` accumulator of `collide_with_world`: starts at
`Vec2::ZERO` and folds `max_by_key` with key `Vec2::length()` (modelled by
the equivalent squared-length key). -/
def max_correction (w : World) (rect : Rect) : Vec2 :=
  (collider_corrections w rect).foldl (fun acc c => max_by_key acc c Vec2.len2) Vec2.zero

/-- The `collide_with_world` system of `src/physics.rs`, for one entity:
`collider_rect` is built from the cached world transform and the transform's
scale, and the accumulated `max_correction` is written to the intersection
only when it is nonzero. -/
def collide_with_world (w : World) (e : EntityState) : EntityState :=
  if max_correction w (Rect.from_center_size e.wt_translation e.scale) ≠ Vec2.zero then
    { e with correction := max_correction w (Rect.from_center_size e.wt_translation e.scale) }
  else e

/-- The `apply_corrections` system of `src/physics.rs`, for one entity. -/
def apply_corrections (e : EntityState) : EntityState :=
  if e.correction = Vec2.zero then e
  else
    { e with translation :=
        ⟨e.translation.x + e.correction.x * TILE_SIZE,
         e.translation.y + e.correction.y * TILE_SIZE⟩ }

/-- One fixed physics tick, in the `.chain()` order of `PhysicsPlugin::build`:
`apply_motion`, then `set_world_transform` and `reset_intersections`, then
`collide_with_world`, then `apply_corrections`. -/
def physics_tick (w : World) (dt : ℚ) (e : EntityState) : EntityState :=
  apply_corrections (collide_with_world w (reset_intersections (set_world_transform (apply_motion dt e))))

/-- The correction `collide_with_world` computes during a tick, as a function
of the post-integration state. -/
def tick_correction (w : World) (dt : ℚ) (e : EntityState) : Vec2 :=
  max_correction w
    (Rect.from_center_size (Vec2.smul (1 / TILE_SIZE) (apply_motion dt e).translation) e.scale)

/-- Unit-square overlap test, following the spec's words for
`get_rendered_in_rect`: the cell's unit square `[x,x+1] × [y,y+1]` overlaps
the query rectangle expanded by one unit of margin on every side. -/
def spec_cell_overlaps_expanded (x y : ℤ) (rect : Rect) : Prop :=
  rect.min.x - 1 ≤ (x : ℚ) + 1 ∧ (x : ℚ) ≤ rect.max.x + 1 ∧
  rect.min.y - 1 ≤ (y : ℚ) + 1 ∧ (y : ℚ) ≤ rect.max.y + 1

instance (x y : ℤ) (rect : Rect) : Decidable (spec_cell_overlaps_expanded x y rect) := by
  unfold spec_cell_overlaps_expanded; infer_instance

/-- A 10×10 world with one solid tile at (5,5), used as a concrete input. -/
def w_c1 : World := (World.new 10 10).setD 5 5 WorldTile.Dirt

/-- An entity standing with its collider overlapping the top edge of tile
(5,5): translation (44,46) in render units is (5.5, 5.75) in tile units. -/
def e_c1 : EntityState :=
  { translation := ⟨44, 46⟩, scale := ⟨1, 1⟩, motion := ⟨0, 0⟩,
    wt_translation := ⟨0, 0⟩, wt_tile_position := (0, 0), correction := ⟨0, 0⟩ }

/-- A 10×10 world with two solid tiles at (5,5) and (6,5), used as a concrete
input where two tiles produce corrections in the same tick. -/
def w_c5 : World := ((World.new 10 10).setD 5 5 WorldTile.Dirt).setD 6 5 WorldTile.Dirt

/-- An entity whose cached world transform is (6, 5.75) with a 2×1 collider,
overlapping the top edges of both tiles of `w_c5`. -/
def e_c5 : EntityState :=
  { translation := ⟨0, 0⟩, scale := ⟨2, 1⟩, motion := ⟨0, 0⟩,
    wt_translation := ⟨6, 23/4⟩, wt_tile_position := (0, 0), correction := ⟨0, 0⟩ }

/-- Two vectors with equal components are equal. -/
@[ext] theorem Vec2.ext {a b : Vec2} (hx : a.x = b.x) (hy : a.y = b.y) : a = b := by
  cases a; cases b; cases hx; cases hy; rfl

@[simp] theorem Vec2.add_x (a b : Vec2) : (a + b).x = a.x + b.x := rfl

@[simp] theorem Vec2.add_y (a b : Vec2) : (a + b).y = a.y + b.y := rfl

@[simp] theorem Vec2.sub_x (a b : Vec2) : (a - b).x = a.x - b.x := rfl

@[simp] theorem Vec2.sub_y (a b : Vec2) : (a - b).y = a.y - b.y := rfl

@[simp] theorem Vec2.smul_x (c : ℚ) (v : Vec2) : (Vec2.smul c v).x = c * v.x := rfl

@[simp] theorem Vec2.smul_y (c : ℚ) (v : Vec2) : (Vec2.smul c v).y = c * v.y := rfl

@[simp] theorem Vec2.abs_x (v : Vec2) : v.abs.x = |v.x| := rfl

@[simp] theorem Vec2.abs_y (v : Vec2) : v.abs.y = |v.y| := rfl

@[simp] theorem Vec2.zero_x : Vec2.zero.x = 0 := rfl

@[simp] theorem Vec2.zero_y : Vec2.zero.y = 0 := rfl

/-- Translating a rectangle translates its center. -/
theorem Rect.center_translate (r : Rect) (v : Vec2) :
    (r.translate v).center = r.center + v := by
  unfold Rect.center Rect.translate
  ext <;> simp <;> ring

/-- Translating a rectangle keeps its half size. -/
theorem Rect.half_size_translate (r : Rect) (v : Vec2) :
    (r.translate v).half_size = r.half_size := by
  unfold Rect.half_size Rect.translate
  ext <;> simp

/-- The direction of a tile top line is the unit x vector. -/
theorem tile_top_line_sub (x y : ℤ) :
    (tile_top_line x y).endp - (tile_top_line x y).start = ⟨1, 0⟩ := by
  unfold tile_top_line
  ext <;> simp

/-- For the horizontal unit segment, `vector_line_point` preserves the
point's y component in every branch. -/
theorem vector_line_point_horizontal_y (p : Vec2) :
    (vector_line_point ⟨1, 0⟩ p).y = p.y := by
  simp only [vector_line_point]
  rw [if_neg (by intro h; exact one_ne_zero (congrArg Vec2.x h))]
  split_ifs with ht
  · unfold min_by_key
    split_ifs <;> simp
  · simp

/-- The y component of `collision_delta` against a tile top line. -/
theorem collision_delta_top_y (x y : ℤ) (r : Rect) :
    (collision_delta (tile_top_line x y) r).y =
      r.half_size.y - |r.center.y - ((y : ℚ) + 1)| := by
  unfold collision_delta
  rw [tile_top_line_sub]
  simp [vector_line_point_horizontal_y]
  rfl

/-- A successful `collide_rect` against a tile top line returns the
purely vertical correction `(0, delta.y)` with `delta` strictly positive in
both components. -/
theorem collide_rect_top_line (x y : ℤ) (r : Rect) (c : Vec2)
    (h : (tile_top_line x y).collide_rect r = some c) :
    c = ⟨0, (collision_delta (tile_top_line x y) r).y⟩ ∧
      0 < (collision_delta (tile_top_line x y) r).x ∧
      0 < (collision_delta (tile_top_line x y) r).y := by
  have hperp : (tile_top_line x y).dir.perp = ⟨0, 1⟩ := by
    unfold Line.dir Vec2.perp
    rw [tile_top_line_sub]
    ext <;> simp
  simp only [Line.collide_rect] at h
  rw [hperp] at h
  rw [if_pos (show ((⟨0, 1⟩ : Vec2)).x = 0 from rfl)] at h
  split_ifs at h with hcond
  refine ⟨?_, hcond.1, hcond.2⟩
  have hsm : Vec2.smul ((collision_delta (tile_top_line x y) r).y / ((⟨0, 1⟩ : Vec2)).y) ⟨0, 1⟩ =
      (⟨0, (collision_delta (tile_top_line x y) r).y⟩ : Vec2) := by
    ext <;> simp
  rw [hsm] at h
  exact ((Option.some.injEq _ _).mp h).symm

/-- Applying corrections always adds `correction * TILE_SIZE` to the
translation (adding zero in the skipped branch). -/
theorem apply_corrections_translation (e : EntityState) :
    (apply_corrections e).translation =
      ⟨e.translation.x + e.correction.x * TILE_SIZE,
       e.translation.y + e.correction.y * TILE_SIZE⟩ := by
  unfold apply_corrections
  split_ifs with h
  · have hx : e.correction.x = 0 := by rw [h]; rfl
    have hy : e.correction.y = 0 := by rw [h]; rfl
    simp [hx, hy]
  · rfl

/-- The system `collide_with_world` leaves the translation unchanged. -/
theorem collide_with_world_translation (w : World) (e : EntityState) :
    (collide_with_world w e).translation = e.translation := by
  unfold collide_with_world
  split_ifs <;> rfl

/-- After a reset, the correction stored by `collide_with_world` is exactly
the `max_correction` accumulator (also when that accumulator is zero). -/
theorem collide_with_world_reset_correction (w : World) (e : EntityState) :
    (collide_with_world w (reset_intersections e)).correction =
      max_correction w (Rect.from_center_size e.wt_translation e.scale) := by
  unfold collide_with_world reset_intersections
  split_ifs with h
  · rfl
  · exact (not_not.mp h).symm

/-- C4 counterexample: a diagonal segment and a rectangle for which
`collide_rect` returns a correction that does not clear the overlap — after
adding the correction both components of the recomputed delta are still
strictly positive. -/
theorem correction_clears_counterexample :
    Line.collide_rect ⟨⟨0, 0⟩, ⟨1, -1⟩⟩ ⟨⟨-1/8, -7/8⟩, ⟨7/8, -3/8⟩⟩ = some ⟨1/8, 1/8⟩ ∧
      0 < (collision_delta ⟨⟨0, 0⟩, ⟨1, -1⟩⟩
            (Rect.translate ⟨⟨-1/8, -7/8⟩, ⟨7/8, -3/8⟩⟩ ⟨1/8, 1/8⟩)).x ∧
      0 < (collision_delta ⟨⟨0, 0⟩, ⟨1, -1⟩⟩
            (Rect.translate ⟨⟨-1/8, -7/8⟩, ⟨7/8, -3/8⟩⟩ ⟨1/8, 1/8⟩)).y := by
  with_unfolding_all decide

/-- C4 amended: for the segments the program actually tests (tile top
edges), when the rectangle's center is not below the edge, the returned
correction just clears the overlap: after adding it, the recomputed delta is
no longer strictly positive in both components. -/
theorem top_line_correction_clears (x y : ℤ) (r : Rect) (c : Vec2)
    (hcenter : (y : ℚ) + 1 ≤ r.center.y)
    (h : (tile_top_line x y).collide_rect r = some c) :
    ¬(0 < (collision_delta (tile_top_line x y) (r.translate c)).x ∧
      0 < (collision_delta (tile_top_line x y) (r.translate c)).y) := by
  obtain ⟨hc, hdx, hdy⟩ := collide_rect_top_line x y r c h
  have hdy2 := hdy
  rw [collision_delta_top_y] at hdy2
  have habs : |r.center.y - ((y : ℚ) + 1)| = r.center.y - ((y : ℚ) + 1) :=
    abs_of_nonneg (by linarith)
  have hhs : 0 < r.half_size.y := by
    rw [habs] at hdy2
    linarith
  have hnew : (collision_delta (tile_top_line x y) (r.translate c)).y = 0 := by
    simp only [collision_delta_top_y, Rect.half_size_translate, Rect.center_translate,
      Vec2.add_y, hc]
    rw [habs]
    rw [show r.center.y + (r.half_size.y - (r.center.y - ((y : ℚ) + 1))) - ((y : ℚ) + 1) =
        r.half_size.y from by ring]
    rw [abs_of_pos hhs]
    ring
  rintro ⟨-, h2⟩
  rw [hnew] at h2
  exact lt_irrefl 0 h2

/-- Witness for the amended C4 at a concrete tile and rectangle. -/
theorem top_line_correction_clears_witness :
    ¬(0 < (collision_delta (tile_top_line 5 5)
            (Rect.translate ⟨⟨5, 23/4⟩, ⟨6, 27/4⟩⟩ ⟨0, 1/4⟩)).x ∧
      0 < (collision_delta (tile_top_line 5 5)
            (Rect.translate ⟨⟨5, 23/4⟩, ⟨6, 27/4⟩⟩ ⟨0, 1/4⟩)).y) :=
  top_line_correction_clears 5 5 ⟨⟨5, 23/4⟩, ⟨6, 27/4⟩⟩ ⟨0, 1/4⟩
    (by with_unfolding_all decide) (by with_unfolding_all decide)

/-- The function `max_by_key` returns one of its two arguments. -/
theorem max_by_key_eq_or (a b : Vec2) (f : Vec2 → ℚ) :
    max_by_key a b f = a ∨ max_by_key a b f = b := by
  unfold max_by_key
  split_ifs
  · right; rfl
  · left; rfl

/-- The `max_by_key` fold returns its seed or one of the list elements. -/
theorem foldl_max_by_key_eq_or_mem (l : List Vec2) (a : Vec2) (f : Vec2 → ℚ) :
    l.foldl (fun acc c => max_by_key acc c f) a = a ∨
      l.foldl (fun acc c => max_by_key acc c f) a ∈ l := by
  induction l generalizing a with
  | nil => exact Or.inl rfl
  | cons c0 t ih =>
    rw [List.foldl_cons]
    rcases ih (max_by_key a c0 f) with h | h
    · rcases max_by_key_eq_or a c0 f with h2 | h2
      · exact Or.inl (h.trans h2)
      · exact Or.inr (by rw [h, h2]; exact List.mem_cons_self _ _)
    · exact Or.inr (List.mem_cons_of_mem _ h)

/-- Every correction in the per-entity correction list comes from a
successful `collide_rect` against some tile top line. -/
theorem mem_collider_corrections (w : World) (r : Rect) (c : Vec2)
    (h : c ∈ collider_corrections w r) :
    ∃ x y, (tile_top_line x y).collide_rect r = some c := by
  unfold collider_corrections at h
  rw [List.mem_flatMap] at h
  obtain ⟨wt, -, hc⟩ := h
  rw [List.mem_filterMap] at hc
  obtain ⟨line, hline, hcoll⟩ := hc
  unfold get_tile_lines at hline
  rw [List.mem_singleton] at hline
  exact ⟨wt.pos.1, wt.pos.2, hline ▸ hcoll⟩

/-- The accumulated `max_correction` is the zero vector or a purely vertical
vector with strictly positive y component. -/
theorem max_correction_vertical (w : World) (r : Rect) :
    max_correction w r = Vec2.zero ∨
      ((max_correction w r).x = 0 ∧ 0 < (max_correction w r).y) := by
  unfold max_correction
  rcases foldl_max_by_key_eq_or_mem (collider_corrections w r) Vec2.zero Vec2.len2 with h | h
  · exact Or.inl h
  · right
    obtain ⟨x, y, hsome⟩ := mem_collider_corrections w r _ h
    obtain ⟨hc, -, hdy⟩ := collide_rect_top_line x y r _ hsome
    rw [hc]
    exact ⟨rfl, hdy⟩

/-- C10: after a collision-detection pass (intersection reset followed by
`collide_with_world`), the stored correction is the zero vector or purely
vertical with strictly positive y, and `apply_corrections` therefore never
moves the entity horizontally or downward. -/
theorem detection_correction_never_down (w : World) (e : EntityState) :
    ((collide_with_world w (reset_intersections e)).correction = Vec2.zero ∨
      ((collide_with_world w (reset_intersections e)).correction.x = 0 ∧
        0 < (collide_with_world w (reset_intersections e)).correction.y)) ∧
    (apply_corrections (collide_with_world w (reset_intersections e))).translation.x =
      (collide_with_world w (reset_intersections e)).translation.x ∧
    (collide_with_world w (reset_intersections e)).translation.y ≤
      (apply_corrections (collide_with_world w (reset_intersections e))).translation.y := by
  have hcorr := collide_with_world_reset_correction w e
  have hv := max_correction_vertical w (Rect.from_center_size e.wt_translation e.scale)
  rw [← hcorr] at hv
  refine ⟨hv, ?_, ?_⟩
  · rw [apply_corrections_translation]
    rcases hv with h | h
    · rw [h]
      simp
    · rw [h.1]
      simp
  · rw [apply_corrections_translation]
    rcases hv with h | h
    · rw [h]
      simp
    · have h8 : (0:ℚ) < TILE_SIZE := by norm_num [TILE_SIZE]
      have := mul_pos h.2 h8
      simp only [Vec2.add_y]
      linarith

/-- Membership in a half-open integer range. -/
theorem mem_intRange {a lo hi : ℤ} : a ∈ intRange lo hi ↔ lo ≤ a ∧ a < hi := by
  unfold intRange
  constructor
  · intro h
    obtain ⟨n, hn, rfl⟩ := List.mem_map.mp h
    rw [List.mem_range] at hn
    omega
  · intro h
    apply List.mem_map.mpr
    refine ⟨(a - lo).toNat, ?_, ?_⟩
    · rw [List.mem_range]
      omega
    · omega

/-- The wrapper `setD` never changes the grid width. -/
theorem World.setD_width (w : World) (x y : ℤ) (t : WorldTile) :
    (w.setD x y t).width = w.width := by
  unfold World.setD World.set World.coords_to_index
  split_ifs <;> rfl

/-- The wrapper `setD` never changes the grid height. -/
theorem World.setD_height (w : World) (x y : ℤ) (t : WorldTile) :
    (w.setD x y t).height = w.height := by
  unfold World.setD World.set World.coords_to_index
  split_ifs <;> rfl

/-- The wrapper `setD` never changes the cell count. -/
theorem World.setD_data_length (w : World) (x y : ℤ) (t : WorldTile) :
    (w.setD x y t).data.length = w.data.length := by
  unfold World.setD World.set World.coords_to_index
  split_ifs
  · exact List.length_set _ _ _
  · rfl

/-- Row-major indices of distinct in-column-range coordinates are distinct. -/
theorem grid_index_inj (W : ℕ) (a b x y : ℤ)
    (ha : 0 ≤ a) (haW : a < (W : ℤ)) (hx : 0 ≤ x) (hxW : x < (W : ℤ))
    (h : a + b * (W : ℤ) = x + y * (W : ℤ)) : a = x ∧ b = y := by
  have hW : (0 : ℤ) < (W : ℤ) := lt_of_le_of_lt ha haW
  have h1 : (a + b * (W : ℤ)) % (W : ℤ) = a := by
    rw [mul_comm b ((W : ℤ)), Int.add_mul_emod_self_left]
    exact Int.emod_eq_of_lt ha haW
  have h2 : (x + y * (W : ℤ)) % (W : ℤ) = x := by
    rw [mul_comm y ((W : ℤ)), Int.add_mul_emod_self_left]
    exact Int.emod_eq_of_lt hx hxW
  have hax : a = x := by rw [← h1, ← h2, h]
  refine ⟨hax, ?_⟩
  have h3 : b * (W : ℤ) = y * (W : ℤ) := by
    rw [hax] at h
    linarith
  exact mul_right_cancel₀ hW.ne' h3

/-- An integer strictly below a natural cast has a strictly smaller `toNat`. -/
theorem toNat_lt_of_int_lt (p : ℤ) (n : ℕ) (hp : 0 ≤ p) (h : p < (n : ℤ)) : p.toNat < n := by
  omega

/-- How `get` reads a grid after a guarded `set`: the written cell holds the
new tile, every other cell is unchanged, and out-of-range writes change
nothing. -/
theorem World.get_setD (w : World) (hlen : w.data.length = w.width * w.height)
    (x y : ℤ) (t : WorldTile) (a b : ℤ) :
    (w.setD x y t).get a b =
      if a = x ∧ b = y ∧ 0 ≤ x ∧ x < (w.width : ℤ) ∧ 0 ≤ y ∧ y < (w.height : ℤ) then t
      else w.get a b := by
  by_cases hin : x < (w.width : ℤ) ∧ 0 ≤ x ∧ y < (w.height : ℤ) ∧ 0 ≤ y
  case neg =>
    have hskip : w.setD x y t = w := by
      unfold World.setD World.set World.coords_to_index
      rw [if_neg hin]
      rfl
    rw [hskip, if_neg]
    rintro ⟨-, -, h1, h2, h3, h4⟩
    exact hin ⟨h2, h1, h4, h3⟩
  case pos =>
    have hset : w.setD x y t =
        ⟨w.width, w.height, w.data.set (x + y * (w.width : ℤ)).toNat t⟩ := by
      unfold World.setD World.set World.coords_to_index
      rw [if_pos hin]
      rfl
    rw [hset]
    unfold World.get
    simp only
    by_cases hab : a < 0 ∨ (w.width : ℤ) ≤ a ∨ b < 0 ∨ (w.height : ℤ) ≤ b
    · rw [if_pos hab, if_pos hab, if_neg]
      rintro ⟨rfl, rfl, h1, h2, h3, h4⟩
      rcases hab with h | h | h | h <;> omega
    · rw [if_neg hab, if_neg hab]
      push_neg at hab
      obtain ⟨ha0, haW, hb0, hbH⟩ := hab
      by_cases heq : a = x ∧ b = y
      · obtain ⟨rfl, rfl⟩ := heq
        rw [if_pos ⟨rfl, rfl, hin.2.1, hin.1, hin.2.2.2, hin.2.2.1⟩]
        have hidx : (a + b * (w.width : ℤ)).toNat < w.data.length := by
          rw [hlen]
          apply toNat_lt_of_int_lt
          · have := mul_nonneg hin.2.2.2 (Int.natCast_nonneg w.width)
            omega
          · push_cast
            have h1 : b * (w.width : ℤ) ≤ ((w.height : ℤ) - 1) * (w.width : ℤ) :=
              mul_le_mul_of_nonneg_right (by omega) (by positivity)
            nlinarith
        rw [List.getD_eq_getElem?_getD, List.getElem?_set_self hidx]
        rfl
      · rw [if_neg (by rintro ⟨h1, h2, -⟩; exact heq ⟨h1, h2⟩)]
        have hne : (x + y * (w.width : ℤ)).toNat ≠ (a + b * (w.width : ℤ)).toNat := by
          intro hEq
          have h0x : 0 ≤ x + y * (w.width : ℤ) := by
            have := mul_nonneg hin.2.2.2 (Int.natCast_nonneg w.width)
            omega
          have h0a : 0 ≤ a + b * (w.width : ℤ) := by
            have := mul_nonneg hb0 (Int.natCast_nonneg w.width)
            omega
          have hInt : x + y * (w.width : ℤ) = a + b * (w.width : ℤ) := by
            rw [← Int.toNat_of_nonneg h0x, ← Int.toNat_of_nonneg h0a, hEq]
          obtain ⟨h1, h2⟩ := grid_index_inj w.width x y a b hin.2.1 hin.1 ha0 haW hInt
          exact heq ⟨h1.symm, h2.symm⟩
        rw [List.getD_eq_getElem?_getD, List.getElem?_set_ne hne,
          ← List.getD_eq_getElem?_getD]

/-- A freshly created grid reads `Air` everywhere. -/
theorem World.get_new (width height : ℕ) (a b : ℤ) :
    (World.new width height).get a b = WorldTile.Air := by
  unfold World.new World.get
  simp only
  split_ifs
  · rfl
  · rw [List.getD_eq_getElem?_getD, List.getElem?_replicate]
    split_ifs <;> rfl

/-- Reading a grid after a row loop that writes tile `t` at `(x, y)` for the
guarded `y`s of `ys`: a cell holds `t` when it was written, and is otherwise
unchanged. -/
theorem World.get_foldl_row (W H : ℕ) (x : ℤ) (t : WorldTile) (g : ℤ → Bool)
    (step : World → ℤ → World)
    (hstep : ∀ w1 y, step w1 y = if g y then w1.setD x y t else w1)
    (ys : List ℤ) (w1 : World)
    (hW : w1.width = W) (hH : w1.height = H) (hlen : w1.data.length = W * H)
    (hx : 0 ≤ x ∧ x < (W : ℤ)) (a b : ℤ) :
    (ys.foldl step w1).get a b =
      if a = x ∧ b ∈ ys ∧ g b = true ∧ 0 ≤ b ∧ b < (H : ℤ) then t
      else w1.get a b := by
  induction ys generalizing w1 with
  | nil =>
    rw [List.foldl_nil, if_neg]
    rintro ⟨-, hmem, -⟩
    exact List.not_mem_nil b hmem
  | cons y0 ys ih =>
    rw [List.foldl_cons]
    have hw : (step w1 y0).width = W := by
      rw [hstep]
      split_ifs
      · rw [World.setD_width, hW]
      · exact hW
    have hh : (step w1 y0).height = H := by
      rw [hstep]
      split_ifs
      · rw [World.setD_height, hH]
      · exact hH
    have hl : (step w1 y0).data.length = W * H := by
      rw [hstep]
      split_ifs
      · rw [World.setD_data_length, hlen]
      · exact hlen
    rw [ih (step w1 y0) hw hh hl]
    have hlen2 : w1.data.length = w1.width * w1.height := by rw [hW, hH, hlen]
    have hstepget : (step w1 y0).get a b =
        if a = x ∧ b = y0 ∧ g y0 = true ∧ 0 ≤ y0 ∧ y0 < (H : ℤ) then t
        else w1.get a b := by
      rw [hstep]
      split_ifs with hg hcond hcond
      · rw [World.get_setD w1 hlen2 x y0 t a b, if_pos]
        exact ⟨hcond.1, hcond.2.1, hx.1, by rw [hW]; exact hx.2, hcond.2.2.2.1,
          by rw [hH]; exact hcond.2.2.2.2⟩
      · rw [World.get_setD w1 hlen2 x y0 t a b, if_neg]
        rintro ⟨h1, h2, -, -, h5, h6⟩
        rw [hW, hH] at *
        exact hcond ⟨h1, h2, hg, h5, by rw [← hH]; exact h6⟩
      · exact absurd hcond.2.2.1 (by simp [hg])
      · rfl
    rw [hstepget]
    by_cases hP : a = x ∧ b ∈ ys ∧ g b = true ∧ 0 ≤ b ∧ b < (H : ℤ)
    · rw [if_pos hP, if_pos ⟨hP.1, List.mem_cons_of_mem _ hP.2.1, hP.2.2⟩]
    · rw [if_neg hP]
      by_cases hQ : a = x ∧ b = y0 ∧ g y0 = true ∧ 0 ≤ y0 ∧ y0 < (H : ℤ)
      · rw [if_pos hQ, if_pos]
        refine ⟨hQ.1, ?_, ?_, ?_, ?_⟩
        · rw [hQ.2.1]
          exact List.mem_cons_self _ _
        · rw [hQ.2.1]
          exact hQ.2.2.1
        · rw [hQ.2.1]
          exact hQ.2.2.2.1
        · rw [hQ.2.1]
          exact hQ.2.2.2.2
      · rw [if_neg hQ, if_neg]
        rintro ⟨h1, h2, h3, h4, h5⟩
        rcases List.mem_cons.mp h2 with rfl | hmem
        · exact hQ ⟨h1, rfl, h3, h4, h5⟩
        · exact hP ⟨h1, hmem, h3, h4, h5⟩

/-- A guarded row loop preserves the grid dimensions and cell count. -/
theorem World.foldl_row_dims (x : ℤ) (t : WorldTile) (g : ℤ → Bool)
    (step : World → ℤ → World)
    (hstep : ∀ w1 y, step w1 y = if g y then w1.setD x y t else w1)
    (ys : List ℤ) (w1 : World) :
    (ys.foldl step w1).width = w1.width ∧ (ys.foldl step w1).height = w1.height ∧
      (ys.foldl step w1).data.length = w1.data.length := by
  induction ys generalizing w1 with
  | nil => exact ⟨rfl, rfl, rfl⟩
  | cons y0 ys ih =>
    rw [List.foldl_cons]
    obtain ⟨h1, h2, h3⟩ := ih (step w1 y0)
    have hw : (step w1 y0).width = w1.width := by
      rw [hstep]; split_ifs
      · exact World.setD_width _ _ _ _
      · rfl
    have hh : (step w1 y0).height = w1.height := by
      rw [hstep]; split_ifs
      · exact World.setD_height _ _ _ _
      · rfl
    have hl : (step w1 y0).data.length = w1.data.length := by
      rw [hstep]; split_ifs
      · exact World.setD_data_length _ _ _ _
      · rfl
    exact ⟨h1.trans hw, h2.trans hh, h3.trans hl⟩

/-- Reading a grid after a nested column/row loop: a cell holds `t` exactly
when its column is enumerated and passes the column guard and its row is
enumerated and passes the row guard; every other cell is unchanged. -/
theorem World.get_foldl_grid (W H : ℕ) (t : WorldTile)
    (gx : ℤ → Bool) (gy : ℤ → ℤ → Bool) (Ys : ℤ → List ℤ)
    (stepx : World → ℤ → World) (stepy : ℤ → World → ℤ → World)
    (hstepy : ∀ x w1 y, stepy x w1 y = if gy x y then w1.setD x y t else w1)
    (hstepx : ∀ w0 x, stepx w0 x = if gx x then (Ys x).foldl (stepy x) w0 else w0)
    (xs : List ℤ)
    (hgx : ∀ x ∈ xs, gx x = true → 0 ≤ x ∧ x < (W : ℤ))
    (w0 : World)
    (hW : w0.width = W) (hH : w0.height = H) (hlen : w0.data.length = W * H)
    (a b : ℤ) :
    (xs.foldl stepx w0).get a b =
      if a ∈ xs ∧ gx a = true ∧ b ∈ Ys a ∧ gy a b = true ∧ 0 ≤ b ∧ b < (H : ℤ) then t
      else w0.get a b := by
  induction xs generalizing w0 with
  | nil =>
    rw [List.foldl_nil, if_neg]
    rintro ⟨hmem, -⟩
    exact List.not_mem_nil a hmem
  | cons x0 xs ih =>
    rw [List.foldl_cons]
    have hdims : (stepx w0 x0).width = W ∧ (stepx w0 x0).height = H ∧
        (stepx w0 x0).data.length = W * H := by
      rw [hstepx]
      split_ifs
      · obtain ⟨h1, h2, h3⟩ := World.foldl_row_dims x0 t (gy x0) (stepy x0) (hstepy x0) (Ys x0) w0
        exact ⟨h1.trans hW, h2.trans hH, h3.trans hlen⟩
      · exact ⟨hW, hH, hlen⟩
    rw [ih (fun x hx hgxx => hgx x (List.mem_cons_of_mem _ hx) hgxx) (stepx w0 x0)
      hdims.1 hdims.2.1 hdims.2.2]
    have hstepget : (stepx w0 x0).get a b =
        if a = x0 ∧ gx x0 = true ∧ b ∈ Ys x0 ∧ gy x0 b = true ∧ 0 ≤ b ∧ b < (H : ℤ) then t
        else w0.get a b := by
      rw [hstepx]
      by_cases hg : gx x0 = true
      · rw [if_pos hg, World.get_foldl_row W H x0 t (gy x0) (stepy x0) (hstepy x0) (Ys x0) w0
          hW hH hlen (hgx x0 (List.mem_cons_self _ _) hg) a b]
        by_cases hc : a = x0 ∧ b ∈ Ys x0 ∧ gy x0 b = true ∧ 0 ≤ b ∧ b < (H : ℤ)
        · rw [if_pos hc, if_pos ⟨hc.1, hg, hc.2⟩]
        · rw [if_neg hc, if_neg]
          rintro ⟨h1, -, h3, h4, h5, h6⟩
          exact hc ⟨h1, h3, h4, h5, h6⟩
      · rw [if_neg hg, if_neg]
        rintro ⟨-, h2, -⟩
        exact hg h2
    rw [hstepget]
    by_cases hP : a ∈ xs ∧ gx a = true ∧ b ∈ Ys a ∧ gy a b = true ∧ 0 ≤ b ∧ b < (H : ℤ)
    · rw [if_pos hP, if_pos ⟨List.mem_cons_of_mem _ hP.1, hP.2⟩]
    · rw [if_neg hP]
      by_cases hQ : a = x0 ∧ gx x0 = true ∧ b ∈ Ys x0 ∧ gy x0 b = true ∧ 0 ≤ b ∧ b < (H : ℤ)
      · rw [if_pos hQ, if_pos]
        obtain ⟨rfl, hq⟩ := hQ
        exact ⟨List.mem_cons_self _ _, hq⟩
      · rw [if_neg hQ, if_neg]
        rintro ⟨h1, h2, h3, h4, h5, h6⟩
        rcases List.mem_cons.mp h1 with rfl | hmem
        · exact hQ ⟨rfl, h2, h3, h4, h5, h6⟩
        · exact hP ⟨hmem, h2, h3, h4, h5, h6⟩

/-- C2 amended: full characterization of `fill_radius`.  A cell receives the
stamped tile exactly when it lies in the half-open scanned box
`[cx-ri, cx+ri) × [cy-ri, cy+ri)` (with `ri = trunc(radius + 0.5)`), is in
grid range, and its distance to the center is at most the radius; every
other cell keeps its previous value.  In particular in-range cells at
distance ≤ radius outside the scanned box are NOT stamped. -/
theorem fill_radius_get (w : World) (hlen : w.data.length = w.width * w.height)
    (ex ey : ℤ) (radius : ℚ) (t : WorldTile) (a b : ℤ) :
    (w.fill_radius ex ey radius t).get a b =
      if ex - truncQ (radius + 1/2) ≤ a ∧ a < ex + truncQ (radius + 1/2) ∧
         0 ≤ a ∧ a < (w.width : ℤ) ∧
         ey - truncQ (radius + 1/2) ≤ b ∧ b < ey + truncQ (radius + 1/2) ∧
         0 ≤ b ∧ b < (w.height : ℤ) ∧
         dist_le ⟨(a : ℚ), (b : ℚ)⟩ ⟨(ex : ℚ), (ey : ℚ)⟩ radius
      then t else w.get a b := by
  have hstepy : ∀ (x : ℤ) (w1 : World) (y : ℤ),
      fill_step_y w.height ⟨(ex : ℚ), (ey : ℚ)⟩ radius t x w1 y =
        if decide ((0 ≤ y ∧ y < (w.height : ℤ)) ∧
            dist_le ⟨(x : ℚ), (y : ℚ)⟩ ⟨(ex : ℚ), (ey : ℚ)⟩ radius) = true
        then w1.setD x y t else w1 := by
    intro x w1 y
    simp only [fill_step_y]
    by_cases h1 : y < 0 ∨ (w.height : ℤ) ≤ y
    · rw [if_pos h1, if_neg]
      simp only [decide_eq_true_eq]
      rintro ⟨⟨h2, h3⟩, -⟩
      rcases h1 with h | h <;> omega
    · rw [if_neg h1]
      push_neg at h1
      by_cases h2 : dist_le ⟨(x : ℚ), (y : ℚ)⟩ ⟨(ex : ℚ), (ey : ℚ)⟩ radius
      · rw [if_pos h2, if_pos]
        simp only [decide_eq_true_eq]
        exact ⟨⟨h1.1, h1.2⟩, h2⟩
      · rw [if_neg h2, if_neg]
        simp only [decide_eq_true_eq]
        rintro ⟨-, h⟩
        exact h2 h
  have hstepx : ∀ (w0 : World) (x : ℤ),
      fill_step_x w.width w.height ey (truncQ (radius + 1/2)) ⟨(ex : ℚ), (ey : ℚ)⟩ radius t w0 x =
        if decide (0 ≤ x ∧ x < (w.width : ℤ)) = true
        then (intRange (ey - truncQ (radius + 1/2)) (ey + truncQ (radius + 1/2))).foldl
          (fill_step_y w.height ⟨(ex : ℚ), (ey : ℚ)⟩ radius t x) w0
        else w0 := by
    intro w0 x
    unfold fill_step_x
    by_cases h : x < 0 ∨ (w.width : ℤ) ≤ x
    · rw [if_pos h, if_neg]
      simp only [decide_eq_true_eq]
      rintro ⟨h1, h2⟩
      rcases h with h | h <;> omega
    · rw [if_neg h, if_pos]
      push_neg at h
      simp only [decide_eq_true_eq]
      exact ⟨h.1, h.2⟩
  simp only [World.fill_radius]
  rw [World.get_foldl_grid w.width w.height t
    (fun x => decide (0 ≤ x ∧ x < (w.width : ℤ)))
    (fun x y => decide ((0 ≤ y ∧ y < (w.height : ℤ)) ∧
      dist_le ⟨(x : ℚ), (y : ℚ)⟩ ⟨(ex : ℚ), (ey : ℚ)⟩ radius))
    (fun _ => intRange (ey - truncQ (radius + 1/2)) (ey + truncQ (radius + 1/2)))
    (fill_step_x w.width w.height ey (truncQ (radius + 1/2)) ⟨(ex : ℚ), (ey : ℚ)⟩ radius t)
    (fun x => fill_step_y w.height ⟨(ex : ℚ), (ey : ℚ)⟩ radius t x)
    hstepy hstepx
    (intRange (ex - truncQ (radius + 1/2)) (ex + truncQ (radius + 1/2)))
    (fun x _ h => by simpa using h)
    w rfl rfl hlen a b]
  refine if_congr ?_ rfl rfl
  simp only [mem_intRange, decide_eq_true_eq]
  tauto

/-- C2 witness: a box-and-disc cell of a concrete 5×5 grid receives the
stamped tile. -/
theorem fill_radius_get_witness :
    ((World.new 5 5).fill_radius 2 2 2 WorldTile.Dirt).get 1 2 = WorldTile.Dirt :=
  (fill_radius_get (World.new 5 5) (by with_unfolding_all decide) 2 2 2 WorldTile.Dirt 1 2).trans
    (by with_unfolding_all decide)

/-- C2 counterexample: after `fill_radius(2,2,2,Dirt)` on a fresh 5×5 grid,
the in-range cell (4,2) is at distance 2 ≤ 2 from the center but is NOT set
to `Dirt` (the truncated half-open scan box `[0,4) × [0,4)` misses it). -/
theorem fill_radius_counterexample :
    dist_le ⟨4, 2⟩ ⟨2, 2⟩ 2 ∧
      (0 : ℤ) ≤ 4 ∧ (4 : ℤ) < (((World.new 5 5).fill_radius 2 2 2 WorldTile.Dirt).width : ℤ) ∧
      (0 : ℤ) ≤ 2 ∧ (2 : ℤ) < (((World.new 5 5).fill_radius 2 2 2 WorldTile.Dirt).height : ℤ) ∧
      ((World.new 5 5).fill_radius 2 2 2 WorldTile.Dirt).get 4 2 = WorldTile.Air := by
  with_unfolding_all decide

/-- C9 amended: the solid cells of a generated grid are exactly, per column,
the rows below `min(height, trunc(H(x)))`, where `H(x)` is the summed wave
height and the f32→usize cast truncates toward zero (clamping negatives to
0).  The stated form with the untruncated real-valued `H(x)` is refuted by
`generate_world_counterexample`. -/
theorem generate_world_columns (width height : ℕ) (waves : List Wave) (sine : ℚ → ℚ)
    (a b : ℤ) :
    (generate_world width height waves sine).get a b = WorldTile.Dirt ↔
      0 ≤ a ∧ a < (width : ℤ) ∧ 0 ≤ b ∧
        b < ((Nat.min height (castUsize (col_height waves sine (a : ℚ))) : ℕ) : ℤ) := by
  have hstepy : ∀ (x : ℤ) (w1 : World) (y : ℤ),
      gen_step_y x w1 y =
        if decide True = true then w1.setD x y WorldTile.Dirt else w1 := by
    intro x w1 y
    simp [gen_step_y]
  have hstepx : ∀ (w0 : World) (x : ℤ),
      gen_step_x height waves sine w0 x =
        if decide True = true
        then (intRange 0 ((Nat.min height (castUsize (col_height waves sine (x : ℚ))) : ℕ) : ℤ)).foldl
          (gen_step_y x) w0
        else w0 := by
    intro w0 x
    simp [gen_step_x]
  have hmain := World.get_foldl_grid width height WorldTile.Dirt
    (fun _ => decide True)
    (fun _ _ => decide True)
    (fun x => intRange 0 ((Nat.min height (castUsize (col_height waves sine (x : ℚ))) : ℕ) : ℤ))
    (gen_step_x height waves sine)
    gen_step_y
    hstepy hstepx
    (intRange 0 (width : ℤ))
    (fun x hx _ => mem_intRange.mp hx)
    (World.new width height) rfl rfl (by
      show (List.replicate (width * height) WorldTile.default).length = width * height
      exact List.length_replicate _ _)
    a b
  unfold generate_world
  rw [hmain, World.get_new]
  have hmin : ((Nat.min height (castUsize (col_height waves sine (a : ℚ))) : ℕ) : ℤ) ≤ (height : ℤ) := by
    exact_mod_cast Nat.min_le_left _ _
  split_ifs with h
  · simp only [mem_intRange, decide_eq_true_eq] at h
    simp only [true_iff]
    refine ⟨h.1.1, h.1.2, h.2.2.1.1, h.2.2.1.2⟩
  · simp only [mem_intRange, decide_eq_true_eq] at h
    constructor
    · intro hAD
      exact absurd hAD (by decide)
    · rintro ⟨h1, h2, h3, h4⟩
      exact absurd ⟨⟨h1, h2⟩, trivial, ⟨h3, h4⟩, trivial, h3, by omega⟩ h

/-- C9 counterexample: a wave configuration with zero amplitude (so the sine
function is irrelevant) and constant real height `H(x) = 5/2`: row 2 of the
column satisfies `2 < min(5, 5/2)` over the reals, so the claim as stated
requires it to be solid, yet the generated cell is `Air` (the code truncates
the height to 2 before filling). -/
theorem generate_world_counterexample :
    (2 : ℚ) < min ((5 : ℕ) : ℚ) (col_height [⟨0, 0, 5/2, 0⟩] (fun _ => 0) 0) ∧
      (0 : ℤ) ≤ 0 ∧ (0 : ℤ) < ((generate_world 1 5 [⟨0, 0, 5/2, 0⟩] (fun _ => 0)).width : ℤ) ∧
      (generate_world 1 5 [⟨0, 0, 5/2, 0⟩] (fun _ => 0)).get 0 2 = WorldTile.Air := by
  with_unfolding_all decide

/-- Membership in the raw rendered-rect enumeration. -/
theorem mem_rendered_in_rect_raw (w : World) (lx ly wd ht : ℤ) (rt : RenderedWorldTile) :
    rt ∈ w.rendered_in_rect_raw lx ly wd ht ↔
      ∃ x y, (lx ≤ x ∧ x < lx + wd ∧ ly ≤ y ∧ y < ly + ht ∧
        0 ≤ x ∧ x < (w.width : ℤ) ∧ 0 ≤ y ∧ y < (w.height : ℤ)) ∧
        rt = w.get_rendered x y := by
  unfold World.rendered_in_rect_raw
  rw [List.mem_flatMap]
  constructor
  · rintro ⟨x, hx, hfm⟩
    rw [List.mem_filterMap] at hfm
    obtain ⟨y, hy, hif⟩ := hfm
    rw [mem_intRange] at hx
    rw [mem_intRange] at hy
    by_cases hb : y < 0 ∨ (w.height : ℤ) ≤ y ∨ x < 0 ∨ (w.width : ℤ) ≤ x
    · rw [if_pos hb] at hif
      exact absurd hif (by simp)
    · rw [if_neg hb] at hif
      push_neg at hb
      exact ⟨x, y, ⟨hx.1, hx.2, hy.1, hy.2, hb.2.2.1, hb.2.2.2, hb.1, hb.2.1⟩,
        ((Option.some.injEq _ _).mp hif).symm⟩
  · rintro ⟨x, y, ⟨h1, h2, h3, h4, h5, h6, h7, h8⟩, rfl⟩
    refine ⟨x, mem_intRange.mpr ⟨h1, h2⟩, ?_⟩
    rw [List.mem_filterMap]
    refine ⟨y, mem_intRange.mpr ⟨h3, h4⟩, ?_⟩
    rw [if_neg]
    rintro (h | h | h | h) <;> omega

/-- C3 amended: `get_rendered_in_rect` yields exactly the in-bounds cells in
the truncated index window `[trunc(min.x-1), trunc(min.x-1)+trunc(width+2))`
× `[trunc(min.y-1), trunc(min.y-1)+trunc(height+2))` (f32→isize casts
truncate toward zero); the enumeration is a finite list.  The spec's
unit-square-overlap description is refuted by
`rendered_in_rect_counterexample`. -/
theorem mem_get_rendered_in_rect (w : World) (rect : Rect) (rt : RenderedWorldTile) :
    rt ∈ w.get_rendered_in_rect rect ↔
      ∃ x y, (truncQ (rect.min.x - 1) ≤ x ∧
        x < truncQ (rect.min.x - 1) + truncQ (rect.width + 2) ∧
        truncQ (rect.min.y - 1) ≤ y ∧
        y < truncQ (rect.min.y - 1) + truncQ (rect.height + 2) ∧
        0 ≤ x ∧ x < (w.width : ℤ) ∧ 0 ≤ y ∧ y < (w.height : ℤ)) ∧
        rt = w.get_rendered x y := by
  unfold World.get_rendered_in_rect
  exact mem_rendered_in_rect_raw w _ _ _ _ rt

/-- C3 counterexample: for the degenerate query rectangle at (2.5, 2.5) on a
5×5 grid, the in-bounds cell (3,3) has its unit square overlapping the
rectangle expanded by one unit of margin, yet it is not enumerated (the
truncated window is x,y ∈ {1,2}). -/
theorem rendered_in_rect_counterexample :
    spec_cell_overlaps_expanded 3 3 ⟨⟨5/2, 5/2⟩, ⟨5/2, 5/2⟩⟩ ∧
      (0 : ℤ) ≤ 3 ∧ (3 : ℤ) < ((World.new 5 5).width : ℤ) ∧
      (0 : ℤ) ≤ 3 ∧ (3 : ℤ) < ((World.new 5 5).height : ℤ) ∧
      ∀ rt ∈ (World.new 5 5).get_rendered_in_rect ⟨⟨5/2, 5/2⟩, ⟨5/2, 5/2⟩⟩,
        rt.pos ≠ (3, 3) := by
  with_unfolding_all decide

/-- Squared length is nonnegative. -/
theorem Vec2.len2_nonneg (v : Vec2) : 0 ≤ v.len2 := by
  unfold Vec2.len2
  exact add_nonneg (mul_self_nonneg _) (mul_self_nonneg _)

/-- Squared length vanishes only on the zero vector. -/
theorem Vec2.len2_eq_zero (v : Vec2) : v.len2 = 0 ↔ v = Vec2.zero := by
  unfold Vec2.len2
  constructor
  · intro h
    have hx : v.x * v.x = 0 := by nlinarith [mul_self_nonneg v.x, mul_self_nonneg v.y]
    have hy : v.y * v.y = 0 := by nlinarith [mul_self_nonneg v.x, mul_self_nonneg v.y]
    ext
    · exact mul_self_eq_zero.mp hx
    · exact mul_self_eq_zero.mp hy
  · rintro rfl
    norm_num

/-- If no element's key exceeds the accumulator's key, the `max_by_key` fold
keeps the accumulator. -/
theorem foldl_max_by_key_of_le (l : List Vec2) (a : Vec2) (f : Vec2 → ℚ)
    (h : ∀ c ∈ l, f c ≤ f a) :
    l.foldl (fun acc c => max_by_key acc c f) a = a := by
  induction l generalizing a with
  | nil => rfl
  | cons c0 t ih =>
    rw [List.foldl_cons]
    have h0 : f c0 ≤ f a := h c0 (List.mem_cons_self _ _)
    have hstep : max_by_key a c0 f = a := by
      unfold max_by_key
      rw [if_neg (not_lt.mpr h0)]
    rw [hstep]
    exact ih a fun c hc => h c (List.mem_cons_of_mem _ hc)

/-- Keys of list members are keys at some index. -/
theorem mem_key_le_of_getD (l : List Vec2) (f : Vec2 → ℚ) (b : ℚ)
    (h : ∀ j, j < l.length → f (l.getD j Vec2.zero) ≤ b) :
    ∀ c ∈ l, f c ≤ b := by
  intro c hc
  obtain ⟨j, hj, hcj⟩ := List.mem_iff_getElem.mp hc
  have := h j hj
  rw [List.getD_eq_getElem?_getD, List.getElem?_eq_getElem hj] at this
  simpa [hcj] using this

/-- The `max_by_key` fold returns the first element of maximal key, provided
that key strictly exceeds the seed's key. -/
theorem foldl_max_by_key_first_max (l : List Vec2) (f : Vec2 → ℚ) (a : Vec2) (i : ℕ)
    (hi : i < l.length)
    (ha : f a < f (l.getD i Vec2.zero))
    (hfirst : ∀ j, j < i → f (l.getD j Vec2.zero) < f (l.getD i Vec2.zero))
    (hmax : ∀ j, j < l.length → f (l.getD j Vec2.zero) ≤ f (l.getD i Vec2.zero)) :
    l.foldl (fun acc c => max_by_key acc c f) a = l.getD i Vec2.zero := by
  induction l generalizing a i with
  | nil => exact absurd hi (by simp)
  | cons c0 t ih =>
    rw [List.foldl_cons]
    cases i with
    | zero =>
      rw [List.getD_cons_zero] at ha ⊢
      have hstep : max_by_key a c0 f = c0 := by
        unfold max_by_key
        rw [if_pos ha]
      rw [hstep]
      apply foldl_max_by_key_of_le
      apply mem_key_le_of_getD
      intro j hj
      have := hmax (j + 1) (by simpa using Nat.succ_lt_succ hj)
      rwa [List.getD_cons_succ, List.getD_cons_zero] at this
    | succ j =>
      rw [List.getD_cons_succ] at ha ⊢
      have h0 : f c0 < f (t.getD j Vec2.zero) := by
        have := hfirst 0 (Nat.succ_pos j)
        rwa [List.getD_cons_zero, List.getD_cons_succ] at this
      have ha2 : f (max_by_key a c0 f) < f (t.getD j Vec2.zero) := by
        rcases max_by_key_eq_or a c0 f with h2 | h2 <;> rw [h2]
        · exact ha
        · exact h0
      refine ih (max_by_key a c0 f) j (by simpa using Nat.lt_of_succ_lt_succ hi) ha2 ?_ ?_
      · intro k hk
        have := hfirst (k + 1) (Nat.succ_lt_succ hk)
        rwa [List.getD_cons_succ, List.getD_cons_succ] at this
      · intro k hk
        have := hmax (k + 1) (by simpa using Nat.succ_lt_succ hk)
        rwa [List.getD_cons_succ, List.getD_cons_succ] at this

/-- C5: when the i-th computed correction has strictly greater squared
length than every earlier one and at least the squared length of every other
one (squared-length comparisons order exactly as f32 `length()` comparisons),
the correction stored in the entity's intersection is exactly that i-th
correction: the correction of strictly greatest length wins, and on ties the
first computed one is kept; corrections are never summed. -/
theorem largest_correction_selected (w : World) (e : EntityState) (i : ℕ)
    (hi : i < (collider_corrections w (Rect.from_center_size e.wt_translation e.scale)).length)
    (hfirst : ∀ j, j < i →
      Vec2.len2 ((collider_corrections w (Rect.from_center_size e.wt_translation e.scale)).getD j Vec2.zero) <
        Vec2.len2 ((collider_corrections w (Rect.from_center_size e.wt_translation e.scale)).getD i Vec2.zero))
    (hmax : ∀ j, j < (collider_corrections w (Rect.from_center_size e.wt_translation e.scale)).length →
      Vec2.len2 ((collider_corrections w (Rect.from_center_size e.wt_translation e.scale)).getD j Vec2.zero) ≤
        Vec2.len2 ((collider_corrections w (Rect.from_center_size e.wt_translation e.scale)).getD i Vec2.zero)) :
    (collide_with_world w (reset_intersections e)).correction =
      (collider_corrections w (Rect.from_center_size e.wt_translation e.scale)).getD i Vec2.zero := by
  rw [collide_with_world_reset_correction]
  unfold max_correction
  by_cases hpos :
      0 < Vec2.len2 ((collider_corrections w (Rect.from_center_size e.wt_translation e.scale)).getD i Vec2.zero)
  · apply foldl_max_by_key_first_max _ _ _ i hi ?_ hfirst hmax
    have hz : Vec2.len2 Vec2.zero = 0 := by
      rw [Vec2.len2_eq_zero]
    rw [hz]
    exact hpos
  · have hz : Vec2.len2 ((collider_corrections w (Rect.from_center_size e.wt_translation e.scale)).getD i Vec2.zero) = 0 :=
      le_antisymm (not_lt.mp hpos) (Vec2.len2_nonneg _)
    have hall : ∀ c ∈ collider_corrections w (Rect.from_center_size e.wt_translation e.scale),
        Vec2.len2 c ≤ Vec2.len2 Vec2.zero := by
      apply mem_key_le_of_getD
      intro j hj
      have h0 : Vec2.len2 Vec2.zero = 0 := by
        rw [Vec2.len2_eq_zero]
      rw [h0]
      rw [← hz]
      exact hmax j hj
    rw [foldl_max_by_key_of_le _ _ _ hall]
    exact ((Vec2.len2_eq_zero _).mp hz).symm

/-- Witness for C5 on a concrete world where two solid tiles produce two
corrections of equal length in the same pass: the first one is stored. -/
theorem largest_correction_selected_witness :
    (collide_with_world w_c5 (reset_intersections e_c5)).correction =
      (collider_corrections w_c5 (Rect.from_center_size e_c5.wt_translation e_c5.scale)).getD 0 Vec2.zero ∧
      (collider_corrections w_c5 (Rect.from_center_size e_c5.wt_translation e_c5.scale)).length = 2 ∧
      (collider_corrections w_c5 (Rect.from_center_size e_c5.wt_translation e_c5.scale)).getD 0 Vec2.zero = ⟨0, 1/4⟩ :=
  ⟨largest_correction_selected w_c5 e_c5 0 (by with_unfolding_all decide)
      (fun j hj => absurd hj (Nat.not_lt_zero j))
      (by with_unfolding_all decide),
    by with_unfolding_all decide,
    by with_unfolding_all decide⟩

/-- C6: `Line::collide_rect` returns a correction exactly when both
components of `delta = rect.half_size() - distance_vector.abs()` are
strictly positive; otherwise it returns `None`. -/
theorem collide_rect_some_iff_delta_pos (l : Line) (rect : Rect) :
    (∃ c, l.collide_rect rect = some c) ↔
      0 < (collision_delta l rect).x ∧ 0 < (collision_delta l rect).y := by
  unfold Line.collide_rect
  by_cases h : 0 < (collision_delta l rect).x ∧ 0 < (collision_delta l rect).y
  · simp only [if_pos h, Option.some.injEq]
    exact ⟨fun _ => h, fun _ => ⟨_, rfl⟩⟩
  · simp only [if_neg h]
    exact ⟨fun ⟨c, hc⟩ => absurd hc (by simp), fun hc => absurd hc h⟩

/-- C7: `World::get` returns the default tile `Air` for every out-of-range
coordinate pair; it is total. -/
theorem get_out_of_range_default (w : World) (x y : ℤ)
    (h : x < 0 ∨ (w.width : ℤ) ≤ x ∨ y < 0 ∨ (w.height : ℤ) ≤ y) :
    w.get x y = WorldTile.Air := by
  unfold World.get
  rw [if_pos h]
  rfl

/-- Witness for C7 at a concrete out-of-range input. -/
theorem get_out_of_range_default_witness : (World.new 2 2).get (-1) 0 = WorldTile.Air :=
  get_out_of_range_default (World.new 2 2) (-1) 0 (Or.inl (by norm_num))

/-- C8: in-range `set` succeeds and its storage index `x + y*width` is in
range of the `width*height` cell array; out-of-range `set` hits the
assertion (modelled as `none`) instead of returning a recoverable value. -/
theorem set_contract (w : World) (x y : ℤ) (t : WorldTile) :
    (0 ≤ x ∧ x < (w.width : ℤ) ∧ 0 ≤ y ∧ y < (w.height : ℤ) →
      ∃ i, w.coords_to_index x y = some i ∧ i < w.width * w.height ∧
        ∃ w2, w.set x y t = some w2) ∧
    (¬(0 ≤ x ∧ x < (w.width : ℤ) ∧ 0 ≤ y ∧ y < (w.height : ℤ)) →
      w.set x y t = none) := by
  constructor
  · rintro ⟨hx0, hxw, hy0, hyh⟩
    have hidx : w.coords_to_index x y = some (x + y * (w.width : ℤ)).toNat := by
      unfold World.coords_to_index
      rw [if_pos ⟨hxw, hx0, hyh, hy0⟩]
    refine ⟨(x + y * (w.width : ℤ)).toNat, hidx, ?_, ?_⟩
    · have hlt : x + y * (w.width : ℤ) < (w.width : ℤ) * (w.height : ℤ) := by
        have h1 : y * (w.width : ℤ) ≤ ((w.height : ℤ) - 1) * (w.width : ℤ) :=
          mul_le_mul_of_nonneg_right (by omega) (by positivity)
        nlinarith
      have h0 : 0 ≤ x + y * (w.width : ℤ) := by positivity
      omega
    · unfold World.set
      rw [hidx]
      exact ⟨_, rfl⟩
  · intro h
    unfold World.set World.coords_to_index
    rw [if_neg (by tauto)]
    rfl

/-- Witness for C8: a successful in-range `set` and a fatal out-of-range
`set` on a concrete 3×2 grid. -/
theorem set_contract_witness :
    (∃ i, (World.new 3 2).coords_to_index 1 1 = some i ∧
        i < (World.new 3 2).width * (World.new 3 2).height ∧
        ∃ w2, (World.new 3 2).set 1 1 WorldTile.Dirt = some w2) ∧
      (World.new 3 2).set 3 0 WorldTile.Dirt = none :=
  ⟨(set_contract (World.new 3 2) 1 1 WorldTile.Dirt).1 (by with_unfolding_all decide),
   (set_contract (World.new 3 2) 3 0 WorldTile.Dirt).2 (by with_unfolding_all decide)⟩

/-- C1 counterexample: with no correction pending from an earlier tick, the
claim says the end-of-tick position equals the integrated position; but the
correction computed by this tick's detection is already applied this tick. -/
theorem same_tick_counterexample :
    (physics_tick w_c1 0 e_c1).translation ≠ (apply_motion 0 e_c1).translation := by
  with_unfolding_all decide

/-- C1 amended: the correction computed during tick N's detection phase is
added to the entity's position during tick N's own correction-application
phase (the final phase of the same tick): the end-of-tick translation equals
the integrated translation plus `TILE_SIZE` times the correction computed
from the post-integration position. -/
theorem physics_tick_same_tick_application (w : World) (dt : ℚ) (e : EntityState) :
    (physics_tick w dt e).translation =
      ⟨(apply_motion dt e).translation.x + (tick_correction w dt e).x * TILE_SIZE,
       (apply_motion dt e).translation.y + (tick_correction w dt e).y * TILE_SIZE⟩ := by
  unfold physics_tick
  rw [apply_corrections_translation, collide_with_world_translation]
  have hcorr : (collide_with_world w (reset_intersections (set_world_transform (apply_motion dt e)))).correction =
      tick_correction w dt e := by
    rw [collide_with_world_reset_correction]
    rfl
  rw [hcorr]
  rfl

end Tanks
